import Mathlib

/-!
Verification of the tamper-evident self-healing blockchain demo
(`terror/bequest-interview-question-2`).

The repository has two visible source files:
* `src/server/app.ts` — the Express transport layer: three HTTP handlers
  (`POST /api/create`, `GET /api/information`, `POST /api/tamper`) operating on
  two process-wide variables `blockchain` and `information`, delegating the
  cryptographic work to a `Verifier` loaded from a precompiled wasm artifact.
* `src/client/src/App.tsx` — the React client, which fixes the wire encoding
  of the status enumeration (`Recovered = 0, Valid = 1, Tampered = 2`).

The `Verifier` core itself (`create_block`, `information`) ships only as a
precompiled artifact, so its algorithm is modelled here from the specification
(§4.1 Block Factory, §4.2 Chain Inspector).  Hashing and the keyed MAC are
modelled symbolically: a digest is a free constructor applied to the hashed
fields, so distinct inputs yield distinct digests (ideal collision
resistance), and a MAC is a free constructor over the secret and the hash.
The transport layer is embedded faithfully from `app.ts` as pure functions
from server state and request to server state and response.
-/

/-- Symbolic digest values.  `sentinel` is the fixed previous-hash of the
genesis block (§3, §4.1); `digest` is the ideal collision-resistant hash of
the four block fields `(index, timestamp, data, previousHash)` (§4.1). -/
inductive Hash where
  | sentinel : Hash
  | digest (index : Nat) (timestamp : Nat) (data : String) (prev : Hash) : Hash
deriving DecidableEq

/-- Symbolic keyed authentication codes: `mac secret h` is computable only
from the secret, so it is unforgeable by construction (§3 `signature`). -/
inductive Sig where
  | mac (secret : String) (h : Hash) : Sig
deriving DecidableEq

deriving instance DecidableEq for Except

/-- `Digest(index, timestamp, data, previousHash)` of §4.1. -/
def computeHash (index : Nat) (timestamp : Nat) (data : String) (prev : Hash) : Hash :=
  Hash.digest index timestamp data prev

/-- `KeyedMAC(secret, hash)` of §4.1. -/
def keyedMac (secret : String) (h : Hash) : Sig :=
  Sig.mac secret h

/-- A block record (§3): `index`, `timestamp`, `data`, `previousHash`,
`hash`, `signature`. -/
structure Block where
  index : Nat
  timestamp : Nat
  data : String
  previousHash : Hash
  hash : Hash
  signature : Sig
deriving DecidableEq

/-- Per-block inspection status (§3).  Constructor order matches the wire
ordinals fixed by the client enum in `src/client/src/App.tsx`
(`Recovered = 0, Valid = 1, Tampered = 2`). -/
inductive Status where
  | Recovered : Status
  | Valid : Status
  | Tampered : Status
deriving DecidableEq

/-- Wire encoding of a status, as declared by the client enum
(`src/client/src/App.tsx` lines 9–13). -/
def statusCode : Status → Nat
  | Status.Recovered => 0
  | Status.Valid => 1
  | Status.Tampered => 2

/-- The client-side decoder determined by the same enum: the inverse mapping
of `statusCode` on the three declared ordinals. -/
def decodeStatus : Nat → Option Status
  | 0 => some Status.Recovered
  | 1 => some Status.Valid
  | 2 => some Status.Tampered
  | _ => none

/-- Modelled from the spec: the maximum accepted `data` size of the Block
Factory's acceptance policy (§4.1: "under a maximum size bound; the exact
bound is a configuration constant").  The artifact's concrete bound is not
visible; any fixed constant realizes the policy. -/
def MAX_DATA_LENGTH : Nat := 1024

/-- Modelled from the spec: `createBlock` of the Block Factory (§4.1), absent
from `src/` (it lives in the precompiled wasm `Verifier`).  `timestamp` is
the current time, supplied by the environment as an explicit argument.
Computes `index = prior.index + 1` (or 0), `previousHash = prior.hash` (or
the sentinel), then the digest and the keyed MAC; rejects data failing the
acceptance policy with `InvalidInputError`. -/
def create_block (secret : String) (timestamp : Nat) (prior : Option Block)
    (data : String) : Except String Block :=
  if data = "" ∨ MAX_DATA_LENGTH < data.length then
    Except.error "InvalidInputError: data fails acceptance policy"
  else
    let index : Nat := match prior with | some p => p.index + 1 | none => 0
    let prev : Hash := match prior with | some p => p.hash | none => Hash.sentinel
    Except.ok
      { index := index
        timestamp := timestamp
        data := data
        previousHash := prev
        hash := computeHash index timestamp data prev
        signature := keyedMac secret (computeHash index timestamp data prev) }

/-- The repair step of the Chain Inspector (§4.2 step 3c): set
`previousHash := expectedPreviousHash` and recompute `hash` and `signature`
from the block's current fields. -/
def repairBlock (secret : String) (expectedPrev : Hash) (b : Block) : Block :=
  { b with
    previousHash := expectedPrev
    hash := computeHash b.index b.timestamp b.data expectedPrev
    signature := keyedMac secret (computeHash b.index b.timestamp b.data expectedPrev) }

/-- Modelled from the spec: the single forward pass of the Chain Inspector
(§4.2 step 3), threading `expectedPreviousHash`.  A self-intact, link-intact
block is emitted unchanged (`Valid`); a non-self-intact block is repaired and
emitted `Tampered`; a self-intact block with a broken link is repaired and
emitted `Recovered`. -/
def inspectFrom (secret : String) (expectedPrev : Hash) : List Block → List (Block × Status)
  | [] => []
  | b :: rest =>
    if computeHash b.index b.timestamp b.data b.previousHash = b.hash ∧
        keyedMac secret (computeHash b.index b.timestamp b.data b.previousHash) = b.signature then
      if b.previousHash = expectedPrev then
        (b, Status.Valid) :: inspectFrom secret b.hash rest
      else
        (repairBlock secret expectedPrev b, Status.Recovered) ::
          inspectFrom secret (repairBlock secret expectedPrev b).hash rest
    else
      (repairBlock secret expectedPrev b, Status.Tampered) ::
        inspectFrom secret (repairBlock secret expectedPrev b).hash rest

/-- Modelled from the spec: `inspect` of the Chain Inspector (§4.2), absent
from `src/` (it is the wasm `Verifier`'s `information` method).  Fails with
`MalformedChainError` when the indices are not contiguous increasing integers
starting at 0 (§4.2 failure modes); otherwise runs the forward pass from the
sentinel. -/
def inspect (secret : String) (chain : List Block) : Except String (List (Block × Status)) :=
  if chain.map Block.index = List.range chain.length then
    Except.ok (inspectFrom secret Hash.sentinel chain)
  else
    Except.error "MalformedChainError: block indices are not contiguous from 0"

/-- One entry of the `information` array exposed by the server
(`app.ts` line 20): only the block's data string and its status. -/
structure InfoEntry where
  data : String
  status : Status
deriving DecidableEq

/-- The process-wide mutable state of the server (`app.ts` lines 17 and 20):
the stored `blockchain` and the last exposed `information` array. -/
structure ServerState where
  blockchain : List Block
  information : List InfoEntry
deriving DecidableEq

/-- HTTP responses of the three handlers, restricted to the bodies the
handlers actually produce. -/
inductive ApiResponse where
  | createOk (block : Block) : ApiResponse
  | infoOk (information : List InfoEntry) : ApiResponse
  | tamperOk : ApiResponse
  | err (code : Nat) (message : String) : ApiResponse
deriving DecidableEq

/-- The `POST /api/create` handler (`app.ts` lines 22–32): invoke the
verifier's block factory with the caller-supplied `data`, push the returned
block onto the stored blockchain on success, answer 400 with the error
message on failure.  The wasm `create_block` receives only `data` at the call
site; per the boundary contract (§6) the block is minted for the current
chain tail, so the modelled factory is applied to `blockchain.getLast?`. -/
def createHandler (secret : String) (timestamp : Nat) (st : ServerState)
    (data : String) : ServerState × ApiResponse :=
  match create_block secret timestamp st.blockchain.getLast? data with
  | Except.ok b =>
      ({ st with blockchain := st.blockchain ++ [b] }, ApiResponse.createOk b)
  | Except.error e => (st, ApiResponse.err 400 e)

/-- Projection used by the `GET /api/information` handler (`app.ts` lines
41–44): keep only `data` and `status` of each inspected block. -/
def toInfo (e : Block × Status) : InfoEntry :=
  { data := e.1.data, status := e.2 }

/-- The `GET /api/information` handler (`app.ts` lines 34–52): 404 when the
stored blockchain is empty; otherwise call the inspector on the stored chain,
REVERSE its output (line 39), rebuild `information` and reassign `blockchain`
from the reversed sequence, and answer with the information array; answer 400
with the error message when the inspector fails. -/
def informationHandler (secret : String) (st : ServerState) : ServerState × ApiResponse :=
  if st.blockchain = [] then
    (st, ApiResponse.err 404 "No blocks found")
  else
    match inspect secret st.blockchain with
    | Except.ok out =>
        let state := out.reverse
        let info := state.map toInfo
        ({ blockchain := state.map Prod.fst, information := info },
          ApiResponse.infoOk info)
    | Except.error e => (st, ApiResponse.err 400 e)

/-- The `POST /api/tamper` handler (`app.ts` lines 54–69): reject an
out-of-range index with 400 `Invalid block index`; otherwise overwrite the
`data` field of the block at that index in place and answer success.  The
request index is an arbitrary integer. -/
def tamperHandler (st : ServerState) (index : Int) (newData : String) :
    ServerState × ApiResponse :=
  if index < 0 ∨ (st.blockchain.length : Int) ≤ index then
    (st, ApiResponse.err 400 "Invalid block index")
  else
    match st.blockchain[index.toNat]? with
    | some b =>
        ({ st with blockchain := st.blockchain.set index.toNat { b with data := newData } },
          ApiResponse.tamperOk)
    | none => (st, ApiResponse.err 400 "Invalid block index")

/-- The secret provisioned at process start (`app.ts` line 13). -/
def SECRET_KEY : String := "some-super-seekrit-key"

/-- The chain invariant of §3, threaded through an expected previous hash:
every block links to the running hash and carries exactly the hash and
signature the Factory would have produced from its own fields. -/
def ValidFrom (secret : String) : Hash → List Block → Prop
  | _, [] => True
  | p, b :: rest =>
      b.previousHash = p ∧ b.hash = computeHash b.index b.timestamp b.data p ∧
        b.signature = keyedMac secret b.hash ∧ ValidFrom secret b.hash rest

def decidableValidFrom (secret : String) :
    (p : Hash) → (c : List Block) → Decidable (ValidFrom secret p c)
  | _, [] => Decidable.isTrue trivial
  | p, b :: rest =>
      haveI : Decidable (ValidFrom secret b.hash rest) :=
        decidableValidFrom secret b.hash rest
      inferInstanceAs (Decidable (b.previousHash = p ∧
        b.hash = computeHash b.index b.timestamp b.data p ∧
        b.signature = keyedMac secret b.hash ∧ ValidFrom secret b.hash rest))

instance (secret : String) (p : Hash) (c : List Block) :
    Decidable (ValidFrom secret p c) :=
  decidableValidFrom secret p c

/-- The cascade of §4.2's `Recovered` repairs: every block of the suffix is
relinked to the running repaired hash and has hash and signature recomputed. -/
def repairAll (secret : String) (q : Hash) : List Block → List (Block × Status)
  | [] => []
  | b :: rest =>
      (repairBlock secret q b, Status.Recovered) ::
        repairAll secret (repairBlock secret q b).hash rest

/-- A block tampered in place: the `data` field changed, everything else
(`index`, `timestamp`, `previousHash`, `hash`, `signature`) left alone. -/
def DataTamperedFrom (orig tampered : Block) : Prop :=
  tampered.index = orig.index ∧ tampered.timestamp = orig.timestamp ∧
    tampered.data ≠ orig.data ∧ tampered.previousHash = orig.previousHash ∧
    tampered.hash = orig.hash ∧ tampered.signature = orig.signature

instance (orig tampered : Block) : Decidable (DataTamperedFrom orig tampered) :=
  inferInstanceAs (Decidable (tampered.index = orig.index ∧
    tampered.timestamp = orig.timestamp ∧ tampered.data ≠ orig.data ∧
    tampered.previousHash = orig.previousHash ∧ tampered.hash = orig.hash ∧
    tampered.signature = orig.signature))

theorem validFrom_inspectFrom (secret : String) (c : List Block) :
    ∀ p, ValidFrom secret p c →
      inspectFrom secret p c = c.map (fun b => (b, Status.Valid)) := by
  induction c with
  | nil => intro p _; rfl
  | cons b rest ih =>
      intro p h
      obtain ⟨hprev, hhash, hsig, hrest⟩ := h
      have hself : computeHash b.index b.timestamp b.data b.previousHash = b.hash := by
        rw [hprev, hhash]
      have hs : keyedMac secret (computeHash b.index b.timestamp b.data b.previousHash) =
          b.signature := by
        rw [hself, hsig]
      simp only [inspectFrom, List.map_cons]
      rw [if_pos ⟨hself, hs⟩, if_pos hprev, ih b.hash hrest]

theorem repairAll_map_snd (secret : String) (c : List Block) :
    ∀ q, (repairAll secret q c).map Prod.snd =
      List.replicate c.length Status.Recovered := by
  induction c with
  | nil => intro q; rfl
  | cons b rest ih =>
      intro q
      simp only [repairAll, List.map_cons, List.length_cons, List.replicate_succ]
      rw [ih]

theorem repairAll_map_data (secret : String) (c : List Block) :
    ∀ q, (repairAll secret q c).map (fun e => e.1.data) = c.map Block.data := by
  induction c with
  | nil => intro q; rfl
  | cons b rest ih =>
      intro q
      simp only [repairAll, List.map_cons, repairBlock]
      rw [ih]

theorem repairAll_map_index (secret : String) (c : List Block) :
    ∀ q, (repairAll secret q c).map (fun e => e.1.index) = c.map Block.index := by
  induction c with
  | nil => intro q; rfl
  | cons b rest ih =>
      intro q
      simp only [repairAll, List.map_cons, repairBlock]
      rw [ih]

/-- A self-intact suffix inspected against a wrong expected hash is entirely
repaired as `Recovered` (§4.2 design rationale: repairs propagate forward). -/
theorem inspectFrom_broken (secret : String) (c : List Block) :
    ∀ p q, ValidFrom secret p c → q ≠ p →
      inspectFrom secret q c = repairAll secret q c := by
  induction c with
  | nil => intro p q _ _; rfl
  | cons b rest ih =>
      intro p q h hne
      obtain ⟨hprev, hhash, hsig, hrest⟩ := h
      have hself : computeHash b.index b.timestamp b.data b.previousHash = b.hash := by
        rw [hprev, hhash]
      have hs : keyedMac secret (computeHash b.index b.timestamp b.data b.previousHash) =
          b.signature := by
        rw [hself, hsig]
      have hlink : ¬ b.previousHash = q := by
        rw [hprev]; exact fun e => hne e.symm
      simp only [inspectFrom, repairAll]
      rw [if_pos ⟨hself, hs⟩, if_neg hlink]
      congr 1
      refine ih b.hash (repairBlock secret q b).hash hrest ?_
      rw [hhash]
      simp only [repairBlock, computeHash, ne_eq, Hash.digest.injEq, true_and]
      exact hne

/-- Inspection preserves each block's `index` (§4.2: repairs touch only
`previousHash`, `hash`, `signature`). -/
theorem inspectFrom_map_index (secret : String) (c : List Block) :
    ∀ p, (inspectFrom secret p c).map (fun e => e.1.index) = c.map Block.index := by
  induction c with
  | nil => intro p; rfl
  | cons b rest ih =>
      intro p
      simp only [inspectFrom]
      split_ifs with h1 h2 <;> simp only [List.map_cons, repairBlock] <;> rw [ih]

/-- Inspection preserves each block's `data` (§4.2: the tamper is recorded
via status, data is accepted as the new ground truth). -/
theorem inspectFrom_map_data (secret : String) (c : List Block) :
    ∀ p, (inspectFrom secret p c).map (fun e => e.1.data) = c.map Block.data := by
  induction c with
  | nil => intro p; rfl
  | cons b rest ih =>
      intro p
      simp only [inspectFrom]
      split_ifs with h1 h2 <;> simp only [List.map_cons, repairBlock] <;> rw [ih]

theorem inspectFrom_length (secret : String) (c : List Block) :
    ∀ p, (inspectFrom secret p c).length = c.length := by
  induction c with
  | nil => intro p; rfl
  | cons b rest ih =>
      intro p
      simp only [inspectFrom]
      split_ifs with h1 h2 <;> simp only [List.length_cons] <;> rw [ih]

/-- The block sequence emitted by the inspector satisfies the full chain
invariant: every emitted block is self-consistent and linked to the running
emitted hash (this is what makes the repair a repair). -/
theorem validFrom_of_inspectFrom (secret : String) (c : List Block) :
    ∀ p, ValidFrom secret p ((inspectFrom secret p c).map Prod.fst) := by
  induction c with
  | nil => intro p; trivial
  | cons b rest ih =>
      intro p
      simp only [inspectFrom]
      split_ifs with h1 h2
      · simp only [List.map_cons]
        exact ⟨h2, by rw [← h1.1, h2], by rw [← h1.2, h1.1], ih b.hash⟩
      · simp only [List.map_cons]
        exact ⟨rfl, rfl, rfl, ih _⟩
      · simp only [List.map_cons]
        exact ⟨rfl, rfl, rfl, ih _⟩

/-- Single-point tamper, at the level of the forward pass: a valid chain with
exactly one block's `data` mutated in place inspects to `Valid` on the prefix,
`Tampered` at the mutation (repaired over its unchanged `previousHash`), and
the `Recovered` cascade on the suffix. -/
theorem inspectFrom_single_tamper (secret : String) (pre : List Block) :
    ∀ (p : Hash) (bk bt : Block) (suf : List Block),
      ValidFrom secret p (pre ++ bk :: suf) → DataTamperedFrom bk bt →
      inspectFrom secret p (pre ++ bt :: suf) =
        pre.map (fun b => (b, Status.Valid)) ++
          (repairBlock secret bt.previousHash bt, Status.Tampered) ::
            repairAll secret (repairBlock secret bt.previousHash bt).hash suf := by
  induction pre with
  | nil =>
      intro p bk bt suf h ht
      obtain ⟨hti, htt, htd, htp, hth, hts⟩ := ht
      obtain ⟨hprev, hhash, hsig, hrest⟩ := h
      have hbp : bt.previousHash = p := by rw [htp, hprev]
      have hneq : ¬ (computeHash bt.index bt.timestamp bt.data bt.previousHash = bt.hash ∧
          keyedMac secret (computeHash bt.index bt.timestamp bt.data bt.previousHash) =
            bt.signature) := by
        intro hcon
        have hc := hcon.1
        rw [hti, htt, hbp, hth, hhash] at hc
        simp only [computeHash, Hash.digest.injEq, true_and, and_true] at hc
        exact htd hc
      simp only [List.nil_append, inspectFrom, List.map_nil]
      rw [if_neg hneq, hbp]
      congr 1
      refine inspectFrom_broken secret suf bk.hash _ hrest ?_
      show computeHash bt.index bt.timestamp bt.data p ≠ bk.hash
      rw [hti, htt, hhash]
      simp only [computeHash, ne_eq, Hash.digest.injEq, true_and, and_true]
      exact htd
  | cons a pre ih =>
      intro p bk bt suf h ht
      obtain ⟨hprev, hhash, hsig, hrest⟩ := h
      have hself : computeHash a.index a.timestamp a.data a.previousHash = a.hash := by
        rw [hprev, hhash]
      have hs : keyedMac secret (computeHash a.index a.timestamp a.data a.previousHash) =
          a.signature := by
        rw [hself, hsig]
      simp only [List.cons_append, inspectFrom, List.map_cons]
      rw [if_pos ⟨hself, hs⟩, if_pos hprev]
      exact congrArg (List.cons (a, Status.Valid)) (ih a.hash bk bt suf hrest ht)

theorem inspect_ok_inv (secret : String) (c : List Block) (out : List (Block × Status))
    (h : inspect secret c = Except.ok out) :
    c.map Block.index = List.range c.length ∧
      out = inspectFrom secret Hash.sentinel c := by
  unfold inspect at h
  split_ifs at h with hidx
  · cases h
    exact ⟨hidx, rfl⟩

theorem inspect_error_msg (secret : String) (c : List Block) (e : String)
    (h : inspect secret c = Except.error e) :
    e = "MalformedChainError: block indices are not contiguous from 0" := by
  unfold inspect at h
  split_ifs at h
  · cases h
    rfl

theorem create_block_fields (secret : String) (ts : Nat) (prior : Option Block)
    (d : String) (b : Block) (hok : create_block secret ts prior d = Except.ok b) :
    b.data = d ∧ b.timestamp = ts ∧
      b.index = prior.elim 0 (fun p => p.index + 1) ∧
      b.previousHash = prior.elim Hash.sentinel Block.hash := by
  cases prior with
  | none =>
      unfold create_block at hok
      split_ifs at hok
      cases hok
      exact ⟨rfl, rfl, rfl, rfl⟩
  | some p =>
      unfold create_block at hok
      split_ifs at hok
      cases hok
      exact ⟨rfl, rfl, rfl, rfl⟩

theorem create_block_error_msg (secret : String) (ts : Nat) (prior : Option Block)
    (d e : String) (h : create_block secret ts prior d = Except.error e) :
    e = "InvalidInputError: data fails acceptance policy" := by
  unfold create_block at h
  split_ifs at h
  · cases h
    rfl

/-- Concrete fixture blocks for the witnesses, built over the secret of
`app.ts` exactly as the Block Factory would build them. -/
def wblk (i t : Nat) (d : String) (p : Hash) : Block :=
  { index := i, timestamp := t, data := d, previousHash := p,
    hash := computeHash i t d p,
    signature := keyedMac SECRET_KEY (computeHash i t d p) }

def wb0 : Block := wblk 0 0 "a" Hash.sentinel

def wb1 : Block := wblk 1 1 "b" wb0.hash

def wb2 : Block := wblk 2 2 "c" wb1.hash

/-- `wb1` with its `data` mutated in place to `"B"`. -/
def wb1T : Block := { wb1 with data := "B" }

/-- A lone block with a non-contiguous index, making a malformed chain. -/
def wbadIdx : Block := wblk 5 0 "x" Hash.sentinel

/-- C1: on a non-empty stored chain whose inspection succeeds, the
`GET /api/information` handler reverses the inspector's output and uses the
reversed sequence both for the exposed information array and for reassigning
the stored blockchain, so the stored blockchain afterwards equals the reverse
of the inspector's emitted (oldest-first) block sequence. -/
theorem information_handler_replaces_with_reverse (secret : String) (st : ServerState)
    (out : List (Block × Status))
    (hne : st.blockchain ≠ [])
    (hok : inspect secret st.blockchain = Except.ok out) :
    (informationHandler secret st).1.blockchain = (out.map Prod.fst).reverse ∧
      (informationHandler secret st).1.information = (out.map toInfo).reverse ∧
      (informationHandler secret st).2 = ApiResponse.infoOk ((out.map toInfo).reverse) := by
  simp [informationHandler, if_neg hne, hok, List.map_reverse]

theorem information_handler_replaces_with_reverse_witness :
    (informationHandler SECRET_KEY { blockchain := [wb0], information := [] }).1.blockchain =
        ([(wb0, Status.Valid)].map Prod.fst).reverse ∧
      (informationHandler SECRET_KEY { blockchain := [wb0], information := [] }).1.information =
        ([(wb0, Status.Valid)].map toInfo).reverse ∧
      (informationHandler SECRET_KEY { blockchain := [wb0], information := [] }).2 =
        ApiResponse.infoOk (([(wb0, Status.Valid)].map toInfo).reverse) :=
  information_handler_replaces_with_reverse SECRET_KEY
    { blockchain := [wb0], information := [] } [(wb0, Status.Valid)]
    (by decide) (by decide)

/-- C4: the block factory is invoked on the current chain tail (or none)
plus the caller-supplied data, and on success the `POST /api/create` handler
grows the stored blockchain by exactly the one returned block, appended by
the transport layer itself; the information array is untouched, and the
returned block links to the tail. -/
theorem create_handler_appends_returned_block (secret : String) (ts : Nat)
    (st : ServerState) (d : String) (b : Block)
    (hok : create_block secret ts st.blockchain.getLast? d = Except.ok b) :
    (createHandler secret ts st d).1.blockchain = st.blockchain ++ [b] ∧
      (createHandler secret ts st d).1.information = st.information ∧
      (createHandler secret ts st d).2 = ApiResponse.createOk b ∧
      (∀ pr, st.blockchain.getLast? = some pr →
        b.previousHash = pr.hash ∧ b.index = pr.index + 1) ∧
      (st.blockchain.getLast? = none →
        b.previousHash = Hash.sentinel ∧ b.index = 0) := by
  have hf := create_block_fields secret ts st.blockchain.getLast? d b hok
  refine ⟨?_, ?_, ?_, ?_, ?_⟩
  · simp only [createHandler, hok]
  · simp only [createHandler, hok]
  · simp only [createHandler, hok]
  · intro pr hpr
    rw [hpr] at hf
    simp only [Option.elim] at hf
    exact ⟨hf.2.2.2, hf.2.2.1⟩
  · intro hpr
    rw [hpr] at hf
    simp only [Option.elim] at hf
    exact ⟨hf.2.2.2, hf.2.2.1⟩

theorem create_handler_appends_returned_block_witness :
    (createHandler SECRET_KEY 3 { blockchain := [wb0], information := [] } "d").1.blockchain =
        [wb0] ++ [wblk 1 3 "d" wb0.hash] ∧
      (createHandler SECRET_KEY 3 { blockchain := [wb0], information := [] } "d").1.information =
        [] ∧
      (createHandler SECRET_KEY 3 { blockchain := [wb0], information := [] } "d").2 =
        ApiResponse.createOk (wblk 1 3 "d" wb0.hash) ∧
      (∀ pr, ([wb0] : List Block).getLast? = some pr →
        (wblk 1 3 "d" wb0.hash).previousHash = pr.hash ∧
          (wblk 1 3 "d" wb0.hash).index = pr.index + 1) ∧
      (([wb0] : List Block).getLast? = none →
        (wblk 1 3 "d" wb0.hash).previousHash = Hash.sentinel ∧
          (wblk 1 3 "d" wb0.hash).index = 0) :=
  create_handler_appends_returned_block SECRET_KEY 3
    { blockchain := [wb0], information := [] } "d" (wblk 1 3 "d" wb0.hash) (by decide)

/-- C5 counterexample: on an empty stored blockchain the handler does not
return an empty result — it fails with HTTP 404 `No blocks found`. -/
theorem information_handler_empty_404_counterexample :
    (informationHandler SECRET_KEY { blockchain := [], information := [] }).2 =
      ApiResponse.err 404 "No blocks found" := by
  decide

/-- C5 amended: inspecting an empty chain succeeds with an empty sequence,
but at the exposed interface the `GET /api/information` handler answers an
empty stored blockchain with HTTP 404 `No blocks found` (without invoking the
inspector), leaving the state unchanged. -/
theorem inspect_empty_handler_404 (secret : String) (st : ServerState)
    (h : st.blockchain = []) :
    inspect secret [] = Except.ok [] ∧
      informationHandler secret st = (st, ApiResponse.err 404 "No blocks found") := by
  constructor
  · rfl
  · simp only [informationHandler, if_pos h]

theorem inspect_empty_handler_404_witness :
    inspect SECRET_KEY [] = Except.ok [] ∧
      informationHandler SECRET_KEY { blockchain := [], information := [] } =
        ({ blockchain := [], information := [] }, ApiResponse.err 404 "No blocks found") :=
  inspect_empty_handler_404 SECRET_KEY { blockchain := [], information := [] } rfl

/-- C6: when the block factory fails in `POST /api/create`, or the inspector
fails in `GET /api/information`, the handler leaves the stored blockchain and
information array exactly as they were and answers HTTP 400 with the error
message. -/
theorem handlers_error_without_mutation :
    (∀ (secret : String) (ts : Nat) (st : ServerState) (d e : String),
        create_block secret ts st.blockchain.getLast? d = Except.error e →
        createHandler secret ts st d = (st, ApiResponse.err 400 e)) ∧
      (∀ (secret : String) (st : ServerState) (e : String),
        st.blockchain ≠ [] → inspect secret st.blockchain = Except.error e →
        informationHandler secret st = (st, ApiResponse.err 400 e)) := by
  constructor
  · intro secret ts st d e herr
    simp only [createHandler, herr]
  · intro secret st e hne herr
    simp only [informationHandler, if_neg hne, herr]

theorem handlers_error_without_mutation_witness :
    createHandler SECRET_KEY 0 { blockchain := [], information := [] } "" =
      ({ blockchain := [], information := [] },
        ApiResponse.err 400 "InvalidInputError: data fails acceptance policy") ∧
      informationHandler SECRET_KEY { blockchain := [wbadIdx], information := [] } =
        ({ blockchain := [wbadIdx], information := [] },
          ApiResponse.err 400 "MalformedChainError: block indices are not contiguous from 0") :=
  ⟨handlers_error_without_mutation.1 SECRET_KEY 0
      { blockchain := [], information := [] } "" _ (by decide),
    handlers_error_without_mutation.2 SECRET_KEY
      { blockchain := [wbadIdx], information := [] } _ (by decide) (by decide)⟩

/-- C10: for every integer index that is negative or at least the stored
blockchain's length, `POST /api/tamper` answers HTTP 400
`Invalid block index` and leaves the state completely unchanged. -/
theorem tamper_handler_rejects_out_of_range (st : ServerState) (index : Int)
    (nd : String)
    (h : index < 0 ∨ (st.blockchain.length : Int) ≤ index) :
    tamperHandler st index nd = (st, ApiResponse.err 400 "Invalid block index") := by
  simp only [tamperHandler, if_pos h]

theorem tamper_handler_rejects_out_of_range_witness :
    tamperHandler { blockchain := [wb0], information := [] } 5 "z" =
      ({ blockchain := [wb0], information := [] },
        ApiResponse.err 400 "Invalid block index") :=
  tamper_handler_rejects_out_of_range
    { blockchain := [wb0], information := [] } 5 "z" (by decide)

/-- C8: for an in-range index, `POST /api/tamper` sets the `data` field of
the block at that index to `newData` and changes nothing else: the block's
other fields (expressed by the record update touching only `data`), all other
blocks, the chain length, and the information array are unchanged, and the
handler answers success. -/
theorem tamper_handler_mutates_only_data (st : ServerState) (index : Int)
    (nd : String) (b : Block)
    (h0 : 0 ≤ index) (h1 : index < (st.blockchain.length : Int))
    (hb : st.blockchain[index.toNat]? = some b) :
    (tamperHandler st index nd).1.blockchain.length = st.blockchain.length ∧
      (tamperHandler st index nd).1.blockchain[index.toNat]? =
        some { b with data := nd } ∧
      (∀ j : Nat, j ≠ index.toNat →
        (tamperHandler st index nd).1.blockchain[j]? = st.blockchain[j]?) ∧
      (tamperHandler st index nd).1.information = st.information ∧
      (tamperHandler st index nd).2 = ApiResponse.tamperOk := by
  have hguard : ¬ (index < 0 ∨ (st.blockchain.length : Int) ≤ index) := by
    push_neg
    exact ⟨h0, h1⟩
  have hlt : index.toNat < st.blockchain.length := by omega
  simp only [tamperHandler, if_neg hguard, hb]
  refine ⟨List.length_set st.blockchain index.toNat _, ?_, ?_, by trivial, by trivial⟩
  · exact List.getElem?_set_eq_of_lt _ hlt
  · intro j hj
    exact List.getElem?_set_ne (fun e => hj e.symm)

theorem tamper_handler_mutates_only_data_witness :
    (tamperHandler { blockchain := [wb0, wb1], information := [] } 1 "Z").1.blockchain.length =
        ([wb0, wb1] : List Block).length ∧
      (tamperHandler { blockchain := [wb0, wb1], information := [] } 1 "Z").1.blockchain[(1 : Int).toNat]? =
        some { wb1 with data := "Z" } ∧
      (∀ j : Nat, j ≠ (1 : Int).toNat →
        (tamperHandler { blockchain := [wb0, wb1], information := [] } 1 "Z").1.blockchain[j]? =
          ([wb0, wb1] : List Block)[j]?) ∧
      (tamperHandler { blockchain := [wb0, wb1], information := [] } 1 "Z").1.information = [] ∧
      (tamperHandler { blockchain := [wb0, wb1], information := [] } 1 "Z").2 =
        ApiResponse.tamperOk :=
  tamper_handler_mutates_only_data { blockchain := [wb0, wb1], information := [] }
    1 "Z" wb1 (by decide) (by decide) (by decide)

/-- C7: the per-block status is one of exactly the three enumeration values,
and the wire ordinals assumed by the client decoder are stable:
`Recovered = 0`, `Valid = 1`, `Tampered = 2`, with decode inverting encode. -/
theorem status_wire_encoding_stable :
    statusCode Status.Recovered = 0 ∧ statusCode Status.Valid = 1 ∧
      statusCode Status.Tampered = 2 ∧
      (∀ s : Status, decodeStatus (statusCode s) = some s) ∧
      (∀ (secret : String) (chain : List Block) (out : List (Block × Status)),
        inspect secret chain = Except.ok out →
        ∀ e ∈ out, e.2 = Status.Recovered ∨ e.2 = Status.Valid ∨ e.2 = Status.Tampered) := by
  refine ⟨rfl, rfl, rfl, ?_, ?_⟩
  · intro s
    cases s <;> rfl
  · intro secret chain out _ e _
    obtain ⟨b, s⟩ := e
    cases s
    · exact Or.inl rfl
    · exact Or.inr (Or.inl rfl)
    · exact Or.inr (Or.inr rfl)

theorem status_wire_encoding_stable_witness :
    decodeStatus (statusCode Status.Tampered) = some Status.Tampered ∧
      ((wb0, Status.Valid).2 = Status.Recovered ∨ (wb0, Status.Valid).2 = Status.Valid ∨
        (wb0, Status.Valid).2 = Status.Tampered) :=
  ⟨status_wire_encoding_stable.2.2.2.1 Status.Tampered,
    status_wire_encoding_stable.2.2.2.2 SECRET_KEY [wb0] [(wb0, Status.Valid)]
      (by decide) (wb0, Status.Valid) (by decide)⟩

theorem inspectFrom_toInfo_data (secret : String) (c : List Block) (p : Hash) :
    ((inspectFrom secret p c).map toInfo).map InfoEntry.data = c.map Block.data := by
  rw [List.map_map]
  exact inspectFrom_map_data secret c p

/-- The fixed literal error messages the handlers can answer with. -/
def fixedMessages : List String :=
  ["No blocks found", "Invalid block index",
    "InvalidInputError: data fails acceptance policy",
    "MalformedChainError: block indices are not contiguous from 0"]

/-- The string payloads of a response body.  Digest and MAC values are opaque
fixed-size values (per the glossary they are outputs of a hash function, so
they do not contain the key material) and are not string payloads. -/
def responseStrings : ApiResponse → List String
  | ApiResponse.createOk b => [b.data]
  | ApiResponse.infoOk l => l.map InfoEntry.data
  | ApiResponse.tamperOk => []
  | ApiResponse.err _ m => [m]

/-- C9: no handler response contains the secret key among its string
payloads — every exposed string is caller-supplied data, chain data, or a
fixed literal — and the information exposed per block is exactly the
projection to its data string and its status of the inspector's output. -/
theorem secret_never_in_responses :
    (∀ (secret : String) (ts : Nat) (st : ServerState) (d : String),
        secret ≠ d → secret ∉ fixedMessages →
        secret ∉ responseStrings (createHandler secret ts st d).2) ∧
      (∀ (secret : String) (st : ServerState),
        secret ∉ st.blockchain.map Block.data → secret ∉ fixedMessages →
        secret ∉ responseStrings (informationHandler secret st).2) ∧
      (∀ (st : ServerState) (index : Int) (nd : String) (secret : String),
        secret ∉ fixedMessages →
        secret ∉ responseStrings (tamperHandler st index nd).2) ∧
      (∀ (secret : String) (st : ServerState) (l : List InfoEntry),
        (informationHandler secret st).2 = ApiResponse.infoOk l →
        ∃ out, inspect secret st.blockchain = Except.ok out ∧
          l = (out.map toInfo).reverse) := by
  refine ⟨?_, ?_, ?_, ?_⟩
  · intro secret ts st d hd hfix
    rcases hcb : create_block secret ts st.blockchain.getLast? d with e | b
    · have hmsg := create_block_error_msg secret ts st.blockchain.getLast? d e hcb
      simp only [createHandler, hcb, responseStrings]
      intro hmem
      simp only [List.mem_singleton] at hmem
      apply hfix
      rw [hmem, hmsg]
      decide
    · have hf := create_block_fields secret ts st.blockchain.getLast? d b hcb
      simp only [createHandler, hcb, responseStrings]
      intro hmem
      simp only [List.mem_singleton] at hmem
      exact hd (hmem.trans hf.1)
  · intro secret st hchain hfix
    by_cases hne : st.blockchain = []
    · simp only [informationHandler, if_pos hne, responseStrings]
      intro hmem
      simp only [List.mem_singleton] at hmem
      apply hfix
      rw [hmem]
      decide
    · rcases hres : inspect secret st.blockchain with e | out
      · have hmsg := inspect_error_msg secret st.blockchain e hres
        simp only [informationHandler, if_neg hne, hres, responseStrings]
        intro hmem
        simp only [List.mem_singleton] at hmem
        apply hfix
        rw [hmem, hmsg]
        decide
      · obtain ⟨hidx, houteq⟩ := inspect_ok_inv secret st.blockchain out hres
        simp only [informationHandler, if_neg hne, hres, responseStrings]
        intro hmem
        apply hchain
        rw [houteq, List.map_reverse, List.map_reverse, List.mem_reverse,
          inspectFrom_toInfo_data] at hmem
        exact hmem
  · intro st index nd secret hfix
    by_cases hg : index < 0 ∨ (st.blockchain.length : Int) ≤ index
    · simp only [tamperHandler, if_pos hg, responseStrings]
      intro hmem
      simp only [List.mem_singleton] at hmem
      apply hfix
      rw [hmem]
      decide
    · rcases hget : st.blockchain[index.toNat]? with _ | b
      · simp only [tamperHandler, if_neg hg, hget, responseStrings]
        intro hmem
        simp only [List.mem_singleton] at hmem
        apply hfix
        rw [hmem]
        decide
      · simp only [tamperHandler, if_neg hg, hget, responseStrings]
        exact List.not_mem_nil secret
  · intro secret st l hresp
    by_cases hne : st.blockchain = []
    · simp only [informationHandler, if_pos hne] at hresp
      exact absurd hresp (by simp)
    · rcases hres : inspect secret st.blockchain with e | out
      · simp only [informationHandler, if_neg hne, hres] at hresp
        exact absurd hresp (by simp)
      · simp only [informationHandler, if_neg hne, hres,
          ApiResponse.infoOk.injEq] at hresp
        refine ⟨out, rfl, ?_⟩
        rw [← hresp, List.map_reverse]

theorem secret_never_in_responses_witness :
    SECRET_KEY ∉
      responseStrings (createHandler SECRET_KEY 0
        { blockchain := [], information := [] } "hello").2 :=
  secret_never_in_responses.1 SECRET_KEY 0
    { blockchain := [], information := [] } "hello" (by decide) (by decide)

theorem map_pair_valid_snd (pre : List Block) :
    (pre.map (fun b => (b, Status.Valid))).map Prod.snd =
      List.replicate pre.length Status.Valid := by
  induction pre with
  | nil => rfl
  | cons a l ih => simp [List.replicate_succ, ih]

/-- C2: a valid chain with exactly one block (not the last) whose `data` was
mutated in place inspects to `Valid` strictly before the mutation, `Tampered`
at it, and `Recovered` strictly after it; the tampered block is repaired with
hash and signature recomputed over the new data and its unchanged
`previousHash`, and its successor is relinked to the repaired hash. -/
theorem single_point_tamper_classification (secret : String) (pre suf : List Block)
    (bk bt : Block)
    (hvalid : ValidFrom secret Hash.sentinel (pre ++ bk :: suf))
    (hidx : (pre ++ bk :: suf).map Block.index = List.range (pre ++ bk :: suf).length)
    (ht : DataTamperedFrom bk bt)
    (hsuf : suf ≠ []) :
    ∃ out, inspect secret (pre ++ bt :: suf) = Except.ok out ∧
      out.map Prod.snd = List.replicate pre.length Status.Valid ++
        Status.Tampered :: List.replicate suf.length Status.Recovered ∧
      (∀ i, i < pre.length → (out.map Prod.snd)[i]? = some Status.Valid) ∧
      (out.map Prod.snd)[pre.length]? = some Status.Tampered ∧
      (∀ i, pre.length < i → i < out.length →
        (out.map Prod.snd)[i]? = some Status.Recovered) ∧
      out[pre.length]? = some (repairBlock secret bt.previousHash bt, Status.Tampered) ∧
      (∀ e ∈ out[pre.length + 1]?,
        e.1.previousHash = (repairBlock secret bt.previousHash bt).hash) := by
  have hidx2 : (pre ++ bt :: suf).map Block.index =
      List.range (pre ++ bt :: suf).length := by
    have hlen : (pre ++ bt :: suf).length = (pre ++ bk :: suf).length := by simp
    rw [hlen, ← hidx]
    simp [ht.1]
  have hout := inspectFrom_single_tamper secret pre Hash.sentinel bk bt suf hvalid ht
  have hlength : (inspectFrom secret Hash.sentinel (pre ++ bt :: suf)).length =
      pre.length + suf.length + 1 := by
    rw [inspectFrom_length]
    simp [List.length_append]
    omega
  have hsnd : (inspectFrom secret Hash.sentinel (pre ++ bt :: suf)).map Prod.snd =
      List.replicate pre.length Status.Valid ++
        Status.Tampered :: List.replicate suf.length Status.Recovered := by
    rw [hout]
    simp only [List.map_append, List.map_cons]
    rw [repairAll_map_snd, map_pair_valid_snd]
  refine ⟨inspectFrom secret Hash.sentinel (pre ++ bt :: suf), ?_, hsnd, ?_, ?_, ?_, ?_, ?_⟩
  · simp only [inspect]
    rw [if_pos hidx2]
  · intro i hi
    simp [hsnd, List.getElem?_append, List.length_replicate, hi, List.getElem?_replicate]
  · rw [hsnd, List.getElem?_append_right (by simp)]
    simp
  · intro i hgt hlt
    rw [hlength] at hlt
    rw [hsnd, List.getElem?_append_right (by simp; omega)]
    simp only [List.length_replicate]
    obtain ⟨k, hk⟩ : ∃ k, i - pre.length = k + 1 := ⟨i - pre.length - 1, by omega⟩
    rw [hk, List.getElem?_cons_succ, List.getElem?_replicate, if_pos (by omega)]
  · rw [hout, List.getElem?_append_right (by simp)]
    simp
  · rcases suf with _ | ⟨s0, suf'⟩
    · exact absurd rfl hsuf
    · intro e he
      rw [hout, List.getElem?_append_right (by simp)] at he
      simp only [List.length_map] at he
      have h1 : pre.length + 1 - pre.length = 1 := by omega
      rw [h1, List.getElem?_cons_succ] at he
      simp only [repairAll, List.getElem?_cons_zero, Option.mem_def,
        Option.some.injEq] at he
      rw [← he]
      rfl

theorem single_point_tamper_classification_witness :
    ∃ out, inspect SECRET_KEY ([wb0] ++ wb1T :: [wb2]) = Except.ok out ∧
      out.map Prod.snd = [Status.Valid, Status.Tampered, Status.Recovered] ∧
      out[1]? = some (repairBlock SECRET_KEY wb1T.previousHash wb1T, Status.Tampered) := by
  obtain ⟨out, h1, h2, _, _, _, h6, _⟩ :=
    single_point_tamper_classification SECRET_KEY [wb0] [wb2] wb1 wb1T
      (by decide) (by decide) (by decide) (by decide)
  exact ⟨out, h1, by simpa using h2, h6⟩

/-- `wb0` with its `data` mutated in place to `"X"`. -/
def wb0T : Block := { wb0 with data := "X" }

/-- The inspector's repair of `wb0T` (Tampered at position 0). -/
def wb0TR : Block := repairBlock SECRET_KEY Hash.sentinel wb0T

/-- The inspector's cascade repair of `wb1` (Recovered at position 1). -/
def wb1R : Block := repairBlock SECRET_KEY wb0TR.hash wb1

/-- C3 counterexample: inspecting a tampered two-block chain yields statuses
`[Tampered, Recovered]`, while inspecting the block sequence it emitted
yields `[Valid, Valid]` — the second pass does not yield identical statuses;
and at the exposed interface a second consecutive `GET /api/information` on a
two-block store fails with `MalformedChainError` (the handler stored the
reversed chain), rather than reporting the same data with all-`Valid`
statuses. -/
theorem inspect_idempotence_counterexample :
    inspect SECRET_KEY [wb0T, wb1] =
      Except.ok [(wb0TR, Status.Tampered), (wb1R, Status.Recovered)] ∧
      inspect SECRET_KEY [wb0TR, wb1R] =
        Except.ok [(wb0TR, Status.Valid), (wb1R, Status.Valid)] ∧
      [Status.Tampered, Status.Recovered] ≠ [Status.Valid, Status.Valid] ∧
      (informationHandler SECRET_KEY (informationHandler SECRET_KEY
        { blockchain := [wb0, wb1], information := [] }).1).2 =
        ApiResponse.err 400 "MalformedChainError: block indices are not contiguous from 0" :=
  ⟨by decide, by decide, by decide, by decide⟩

/-- C3 amended: re-inspecting the block sequence emitted by a successful
inspection succeeds and yields the identical blocks, every one with status
`Valid` (all-`Valid`, not statuses identical to the first pass); at the
exposed interface, because the handler stores the reversed inspector output,
a second consecutive `GET /api/information` reports the same data with
all-`Valid` statuses when the stored chain has a single block. -/
theorem inspect_idempotent_repaired_all_valid :
    (∀ (secret : String) (c : List Block) (out : List (Block × Status)),
        inspect secret c = Except.ok out →
        inspect secret (out.map Prod.fst) =
          Except.ok ((out.map Prod.fst).map (fun b => (b, Status.Valid)))) ∧
      (∀ (secret : String) (st : ServerState) (b : Block) (out : List (Block × Status)),
        st.blockchain = [b] → inspect secret st.blockchain = Except.ok out →
        (informationHandler secret (informationHandler secret st).1).2 =
          ApiResponse.infoOk ((informationHandler secret st).1.information.map
            (fun e => { data := e.data, status := Status.Valid })) ∧
        (informationHandler secret (informationHandler secret st).1).1.information.map
            InfoEntry.data =
          (informationHandler secret st).1.information.map InfoEntry.data) := by
  constructor
  · intro secret c out hok
    obtain ⟨hidx, houteq⟩ := inspect_ok_inv secret c out hok
    subst houteq
    have hv := validFrom_of_inspectFrom secret c Hash.sentinel
    have hcond : ((inspectFrom secret Hash.sentinel c).map Prod.fst).map Block.index =
        List.range ((inspectFrom secret Hash.sentinel c).map Prod.fst).length := by
      rw [List.map_map]
      have h1 : (inspectFrom secret Hash.sentinel c).map (Block.index ∘ Prod.fst) =
          c.map Block.index := inspectFrom_map_index secret c Hash.sentinel
      rw [h1, List.length_map, inspectFrom_length]
      exact hidx
    simp only [inspect]
    rw [if_pos hcond, validFrom_inspectFrom secret _ Hash.sentinel hv]
  · intro secret st b out hb hok
    have hne : st.blockchain ≠ [] := by simp [hb]
    obtain ⟨hidx, houteq⟩ := inspect_ok_inv secret st.blockchain out hok
    rw [hb] at houteq hidx
    have hr1 : List.range 1 = [0] := rfl
    have hb0 : b.index = 0 := by simpa [hr1] using hidx
    obtain ⟨e, he⟩ : ∃ e, inspectFrom secret Hash.sentinel [b] = [e] := by
      simp only [inspectFrom]
      split_ifs <;> exact ⟨_, rfl⟩
    rw [he] at houteq
    subst houteq
    have hei : e.1.index = b.index := by
      have h2 := inspectFrom_map_index secret [b] Hash.sentinel
      rw [he] at h2
      simpa using h2
    have hev : ValidFrom secret Hash.sentinel [e.1] := by
      have h2 := validFrom_of_inspectFrom secret [b] Hash.sentinel
      rw [he] at h2
      simpa using h2
    have h1 : informationHandler secret st =
        ({ blockchain := [e.1], information := [toInfo e] },
          ApiResponse.infoOk [toInfo e]) := by
      simp [informationHandler, hne, hok]
    have hcond2 : ([e.1] : List Block).map Block.index =
        List.range ([e.1] : List Block).length := by
      simp [hei, hb0, hr1]
    have hok2 : inspect secret [e.1] = Except.ok [(e.1, Status.Valid)] := by
      simp only [inspect]
      rw [if_pos hcond2, validFrom_inspectFrom secret [e.1] Hash.sentinel hev]
      rfl
    rw [h1]
    constructor
    · simp [informationHandler, hok2, toInfo]
    · simp [informationHandler, hok2, toInfo]

theorem inspect_idempotent_repaired_all_valid_witness :
    inspect SECRET_KEY ([(wb0, Status.Valid)].map Prod.fst) =
      Except.ok (([(wb0, Status.Valid)].map Prod.fst).map (fun b => (b, Status.Valid))) :=
  inspect_idempotent_repaired_all_valid.1 SECRET_KEY [wb0] [(wb0, Status.Valid)] (by decide)
